import Mathlib

set_option maxRecDepth 8000

/-!
Verification of the GELF TCP-to-HTTP forwarder (graylogHUB.py).

The development shallowly embeds the parts of the program that the claims
are about:

* `pyLoads` models the observable behaviour of Python `json.loads` as used
  by `GELFForwarder.handle_client` (lines 85-106): success, the
  "Extra data: ... (char N)" failure with its reported position, and every
  other `JSONDecodeError`.  The underlying recursive-descent scanner follows
  CPython `json/scanner.py` and `json/decoder.py` (strict mode): objects,
  arrays, strings with escapes and \uXXXX, numbers matching the regex
  -?(0|[1-9][0-9]*)([.][0-9]+)?([eE][-+]?[0-9]+)?, the literals true, false
  and null, and the whitespace class [ \t\n\r].  The NaN and Infinity
  extensions are not modeled.
* `decodeLoop` / `feedChunk` / `feedAll` model the inner framing loop of
  `handle_client`, character-for-character.
* `utf8Decode` and `runConn` model `data.decode('utf-8')` per received
  chunk and the read loop with its exception handler.
* `forwardGo` / `forwardToFunction` model `forward_to_function`,
  `logMetrics` models `log_metrics`, and `processMessage` models
  `process_message`, including which counter each path increments and
  which paths perform an HTTP attempt.
-/

/-- Whitespace skipped by Python json: the regex class [ \t\n\r]. -/
def isWsChar (c : Char) : Bool :=
  c == ' ' || c == '\t' || c == '\n' || c == '\r'

/-- Drop leading JSON whitespace, as CPython _w(s, idx).end(). -/
def skipWs : List Char → List Char
  | [] => []
  | c :: cs => if isWsChar c then skipWs cs else c :: cs

/-- Scanner state inside a JSON string literal. -/
inductive StrMode where
  | norm : StrMode
  | esc : StrMode
  | hex : Nat → StrMode
deriving DecidableEq

def isHexChar (c : Char) : Bool :=
  c.isDigit || ('a' ≤ c && c ≤ 'f') || ('A' ≤ c && c ≤ 'F')

/-- The single-character escapes accepted by CPython scanstring. -/
def isEscChar (c : Char) : Bool :=
  c == '"' || c == '\\' || c == '/' || c == 'b' || c == 'f' ||
  c == 'n' || c == 'r' || c == 't'

/-- Scan the body of a JSON string (the opening quote already consumed),
returning the input after the closing quote.  Mirrors CPython scanstring in
strict mode: raw control characters below 0x20 are rejected, escapes are the
eight single-character ones plus u followed by four hex digits. -/
def parseStrM : StrMode → List Char → Option (List Char)
  | _, [] => none
  | .norm, c :: cs =>
    if c == '"' then some cs
    else if c == '\\' then parseStrM .esc cs
    else if c.toNat < 32 then none
    else parseStrM .norm cs
  | .esc, c :: cs =>
    if c == 'u' then parseStrM (.hex 4) cs
    else if isEscChar c then parseStrM .norm cs
    else none
  | .hex 0, _ :: _ => none
  | .hex (k + 1), c :: cs =>
    if isHexChar c then
      if k == 0 then parseStrM .norm cs else parseStrM (.hex k) cs
    else none

def parseStringBody (s : List Char) : Option (List Char) :=
  parseStrM .norm s

/-- Match a fixed literal (the tail of true/false/null). -/
def matchLit : List Char → List Char → Option (List Char)
  | [], s => some s
  | _ :: _, [] => none
  | p :: ps, c :: cs => if c == p then matchLit ps cs else none

/-- Greedily drop decimal digits. -/
def parseDigits : List Char → List Char
  | [] => []
  | c :: cs => if c.isDigit then parseDigits cs else c :: cs

/-- The integer part of the number regex: 0 or [1-9][0-9]*. -/
def parseIntPart : List Char → Option (List Char)
  | [] => none
  | c :: cs =>
    if c == '0' then some cs
    else if c.isDigit then some (parseDigits cs)
    else none

/-- The optional fraction part [.][0-9]+ of the number regex; returns the
input unchanged when the part does not match (regex optionality). -/
def parseFrac (s : List Char) : List Char :=
  match s with
  | c1 :: c2 :: cs => if c1 == '.' && c2.isDigit then parseDigits cs else s
  | _ => s

/-- The optional exponent part [eE][-+]?[0-9]+ of the number regex; returns
the input unchanged when the part does not match. -/
def parseExp (s : List Char) : List Char :=
  match s with
  | e1 :: c2 :: cs =>
    if e1 == 'e' || e1 == 'E' then
      if c2.isDigit then parseDigits cs
      else if c2 == '+' || c2 == '-' then
        match cs with
        | d :: ds => if d.isDigit then parseDigits ds else s
        | [] => s
      else s
    else s
  | _ => s

/-- The whole number regex -?(0|[1-9][0-9]*)([.][0-9]+)?([eE][-+]?[0-9]+)?,
greedy exactly as CPython NUMBER_RE. -/
def parseNumber (s : List Char) : Option (List Char) :=
  match s with
  | c0 :: rest =>
    if c0 == '-' then (parseIntPart rest).map (fun q => parseExp (parseFrac q))
    else (parseIntPart (c0 :: rest)).map (fun q => parseExp (parseFrac q))
  | [] => none

/-- Fuel that always suffices for `parseV`: the scanner descends one
recursion level only after consuming at least one character per two fuel
units. -/
def jsonFuel (s : List Char) : Nat := 2 * s.length + 2

mutual

/-- One JSON value starting at the head of the input, as CPython scan_once:
dispatch on the first character, fall through to the number regex.
Returns the remaining input after the value. -/
def parseV : Nat → List Char → Option (List Char)
  | 0, _ => none
  | _ + 1, [] => none
  | f + 1, c :: cs =>
    if c == '"' then parseStringBody cs
    else if c == '{' then
      match skipWs cs with
      | [] => none
      | w :: ws =>
        if w == '}' then some ws
        else if w == '"' then parseMembers f ws
        else none
    else if c == '[' then
      match skipWs cs with
      | [] => none
      | w :: ws =>
        if w == ']' then some ws
        else parseElems f (w :: ws)
    else if c == 't' then matchLit ['r', 'u', 'e'] cs
    else if c == 'f' then matchLit ['a', 'l', 's', 'e'] cs
    else if c == 'n' then matchLit ['u', 'l', 'l'] cs
    else parseNumber (c :: cs)

/-- Object members, entered with the opening quote of a key already
consumed; as CPython JSONObject. -/
def parseMembers : Nat → List Char → Option (List Char)
  | 0, _ => none
  | f + 1, s =>
    match parseStringBody s with
    | none => none
    | some r1 =>
      match skipWs r1 with
      | [] => none
      | w :: ws =>
        if w == ':' then
          match parseV f (skipWs ws) with
          | none => none
          | some r3 =>
            match skipWs r3 with
            | [] => none
            | w2 :: ws2 =>
              if w2 == '}' then some ws2
              else if w2 == ',' then
                match skipWs ws2 with
                | [] => none
                | w3 :: ws3 => if w3 == '"' then parseMembers f ws3 else none
              else none
        else none

/-- Array elements, entered at the first element; as CPython JSONArray. -/
def parseElems : Nat → List Char → Option (List Char)
  | 0, _ => none
  | f + 1, s =>
    match parseV f s with
    | none => none
    | some r1 =>
      match skipWs r1 with
      | [] => none
      | w :: ws =>
        if w == ']' then some ws
        else if w == ',' then parseElems f (skipWs ws)
        else none

end

/-- The three observable outcomes of `json.loads(s)` that handle_client
distinguishes: success, JSONDecodeError "Extra data" carrying the char
position, and every other JSONDecodeError. -/
inductive LoadResult where
  | ok : LoadResult
  | extra : Nat → LoadResult
  | err : LoadResult
deriving DecidableEq

/-- Model of `json.loads(s)`: skip leading whitespace, scan one value, skip
trailing whitespace; anything left raises Extra data at the absolute char
index of the first remaining character (CPython JSONDecoder.decode). -/
def pyLoads (s : List Char) : LoadResult :=
  match parseV (jsonFuel s) (skipWs s) with
  | none => .err
  | some r =>
    match skipWs r with
    | [] => .ok
    | r2 => .extra (s.length - r2.length)

/-- Index of the first occurrence of a character, Python str.find with -1
modeled as none. -/
def findChar (c : Char) : List Char → Option Nat
  | [] => none
  | a :: as => if a == c then some 0 else (findChar c as).map (· + 1)

/-- The inner `while True` framing loop of handle_client (lines 85-106),
fuel-indexed: find the first brace (none: clear buffer, stop); parse from
there (success: emit buffer[start:], clear, stop; Extra data at pos: emit
buffer[start:start+pos], keep buffer[start+pos:], loop; any other
JSONDecodeError: stop with the buffer unchanged).  Each Extra-data
iteration strictly shortens the buffer, so fuel length+1 is never
exhausted. -/
def decodeLoopF : Nat → List Char → List (List Char) × List Char
  | 0, buffer => ([], buffer)
  | fuel + 1, buffer =>
    match findChar '{' buffer with
    | none => ([], [])
    | some start =>
      let rest := buffer.drop start
      match pyLoads rest with
      | .ok => ([rest], [])
      | .err => ([], buffer)
      | .extra pos =>
        let p := decodeLoopF fuel (rest.drop pos)
        (rest.take pos :: p.1, p.2)

/-- One decode attempt on the current buffer: the list of emitted record
strings (in emission order) and the retained buffer. -/
def decodeLoop (buffer : List Char) : List (List Char) × List Char :=
  decodeLoopF (buffer.length + 1) buffer

/-- Append one decoded chunk to the buffer and run the framing loop. -/
def feedChunk (buffer chunk : List Char) : List (List Char) × List Char :=
  decodeLoop (buffer ++ chunk)

/-- Feed a sequence of character chunks through the framing loop,
collecting all emissions in order and the final buffer. -/
def feedAll : List Char → List (List Char) → List (List Char) × List Char
  | buf, [] => ([], buf)
  | buf, c :: cs =>
    let st := feedChunk buf c
    let rest := feedAll st.2 cs
    (st.1 ++ rest.1, rest.2)

/-- Strict UTF-8 decoding of a byte sequence, as Python
bytes.decode('utf-8'): continuation ranges per leading byte, overlongs,
surrogates and values above 0x10FFFF rejected, truncated sequences
rejected. -/
def utf8Decode : List Nat → Option (List Char)
  | [] => some []
  | b :: bs =>
    if b < 128 then (utf8Decode bs).map (fun cs => Char.ofNat b :: cs)
    else if 194 ≤ b && b ≤ 223 then
      match bs with
      | b2 :: bs2 =>
        if 128 ≤ b2 && b2 ≤ 191 then
          (utf8Decode bs2).map
            (fun cs => Char.ofNat ((b - 192) * 64 + (b2 - 128)) :: cs)
        else none
      | [] => none
    else if 224 ≤ b && b ≤ 239 then
      match bs with
      | b2 :: b3 :: bs3 =>
        if ((if b == 224 then 160 else 128) ≤ b2 &&
            b2 ≤ (if b == 237 then 159 else 191)) &&
           (128 ≤ b3 && b3 ≤ 191) then
          (utf8Decode bs3).map
            (fun cs =>
              Char.ofNat ((b - 224) * 4096 + (b2 - 128) * 64 + (b3 - 128)) :: cs)
        else none
      | _ => none
    else if 240 ≤ b && b ≤ 244 then
      match bs with
      | b2 :: b3 :: b4 :: bs4 =>
        if ((if b == 240 then 144 else 128) ≤ b2 &&
            b2 ≤ (if b == 244 then 143 else 191)) &&
           (128 ≤ b3 && b3 ≤ 191) && (128 ≤ b4 && b4 ≤ 191) then
          (utf8Decode bs4).map
            (fun cs =>
              Char.ofNat
                ((b - 240) * 262144 + (b2 - 128) * 4096 +
                  (b3 - 128) * 64 + (b4 - 128)) :: cs)
        else none
      | _ => none
    else none

/-- The read loop of handle_client at the byte level: each received chunk
is decoded with data.decode('utf-8') on its own; a UnicodeDecodeError is
caught by the `except Exception` handler, which breaks the loop and closes
the socket, discarding the buffer.  Returns the emissions and whether the
connection was closed by that exception path. -/
def runConn : List Char → List (List Nat) → List (List Char) × Bool
  | _, [] => ([], false)
  | buf, c :: cs =>
    match utf8Decode c with
    | none => ([], true)
    | some chars =>
      let st := feedChunk buf chars
      let rest := runConn st.2 cs
      (st.1 ++ rest.1, rest.2)

/-- Constructor arguments of GELFForwarder that handle_client receives;
mirroring the code, `max_message_size` is stored but never consulted by
the decode loop. -/
structure ForwarderConfig where
  buffer_size : Nat
  connection_timeout : Nat
  max_message_size : Nat
deriving DecidableEq

/-- One decode step of handle_client with the forwarder configuration in
scope.  The body uses no field of `cfg`, exactly as handle_client
(lines 66-112) never reads self.max_message_size. -/
def handleChunkCfg (_cfg : ForwarderConfig) (buffer chunk : List Char) :
    List (List Char) × List Char :=
  feedChunk buffer chunk

/-- What one HTTP attempt observes: a response with a status code, or a
network-level requests.RequestException. -/
inductive HttpResult where
  | response : Nat → HttpResult
  | netError : HttpResult

/-- Observable trace of forward_to_function: how many POST attempts were
made, which sleeps happened between them, and the returned status (none
models the final-attempt re-raise reaching the caller). -/
structure ForwardTrace where
  attempts : Nat
  sleeps : List Nat
  result : Option Nat
deriving DecidableEq

/-- The `for attempt in range(retries)` loop of forward_to_function: a
response returns immediately; a RequestException on the last attempt
(remaining = 1) re-raises, otherwise sleeps retry_delay * (attempt + 1)
and retries. -/
def forwardGo (env : Nat → HttpResult) (retryDelay : Nat) :
    Nat → Nat → ForwardTrace
  | _, 0 => ⟨0, [], none⟩
  | attempt, rem + 1 =>
    match env attempt with
    | .response s => ⟨1, [], some s⟩
    | .netError =>
      if rem == 0 then ⟨1, [], none⟩
      else
        let t := forwardGo env retryDelay (attempt + 1) rem
        ⟨t.attempts + 1, retryDelay * (attempt + 1) :: t.sleeps, t.result⟩

/-- forward_to_function with the code constants retries = 3 and
retry_delay = 1. -/
def forwardToFunction (env : Nat → HttpResult) : ForwardTrace :=
  forwardGo env 1 0 3

/-- The outcome classification of section 4.3 of the specification. -/
inductive Outcome where
  | delivered : Outcome
  | rejected : Nat → Outcome
  | unreachable : Outcome
deriving DecidableEq

/-- Classify a forward trace: a received status in 200/201/202 is
Delivered (process_message line 141), any other received status is
Rejected with that status, and a propagated exception is Unreachable. -/
def classify (t : ForwardTrace) : Outcome :=
  match t.result with
  | some s => if s == 200 || s == 201 || s == 202 then .delivered else .rejected s
  | none => .unreachable

/-- The mutable counters of GELFForwarder (lines 37-41). -/
structure Metrics where
  messages_processed : Nat
  messages_failed : Nat
  connections_handled : Nat
  last_metrics_time : Nat
deriving DecidableEq

/-- self.metrics_interval = 60 (line 42). -/
def metricsInterval : Nat := 60

/-- The fields reported by one metrics snapshot (log_metrics lines
123-128); the last field carries connections_handled, which the code
prints under the label Active connections. -/
structure Snapshot where
  processed : Nat
  failed : Nat
  messagesPerSecond : ℚ
  failureRatePercent : ℚ
  activeConnectionsLabel : Nat
deriving DecidableEq

/-- log_metrics (lines 114-133): when elapsed time since the last snapshot
reaches the interval, report throughput and failure rate, zero
messages_processed and messages_failed, update last_metrics_time, and
leave connections_handled untouched; otherwise do nothing. -/
def logMetrics (m : Metrics) (now : Nat) : Metrics × Option Snapshot :=
  let elapsed := now - m.last_metrics_time
  if metricsInterval ≤ elapsed then
    let total := m.messages_processed + m.messages_failed
    let rate : ℚ :=
      if 0 < total then (m.messages_failed : ℚ) / (total : ℚ) * 100 else 0
    ({ m with messages_processed := 0, messages_failed := 0,
              last_metrics_time := now },
      some { processed := m.messages_processed,
             failed := m.messages_failed,
             messagesPerSecond := (m.messages_processed : ℚ) / (elapsed : ℚ),
             failureRatePercent := rate,
             activeConnectionsLabel := m.connections_handled })
  else (m, none)

/-- process_message (lines 135-154): parse the raw record; on
JSONDecodeError count a failure and return with no HTTP attempt; on a
received response classify by status, bump the matching counter and run
log_metrics; on a propagated RequestException (caught by the generic
except) count a failure without running log_metrics.  The second component
lists the payloads for which an HTTP forward was attempted. -/
def processMessage (env : Nat → HttpResult) (now : Nat) (m : Metrics)
    (msg : List Char) : Metrics × List (List Char) :=
  if pyLoads msg = .ok then
    let t := forwardToFunction env
    match t.result with
    | some s =>
      let m1 :=
        if s == 200 || s == 201 || s == 202 then
          { m with messages_processed := m.messages_processed + 1 }
        else
          { m with messages_failed := m.messages_failed + 1 }
      ((logMetrics m1 now).1, [msg])
    | none => ({ m with messages_failed := m.messages_failed + 1 }, [msg])
  else ({ m with messages_failed := m.messages_failed + 1 }, [])

/-- Dispatch a list of framed records in order, accumulating the metrics
state and the HTTP-forwarded payloads in order. -/
def dispatchAll (env : Nat → HttpResult) (now : Nat) :
    Metrics → List (List Char) → Metrics × List (List Char)
  | m, [] => (m, [])
  | m, msg :: rest =>
    let st := processMessage env now m msg
    let r2 := dispatchAll env now st.1 rest
    (r2.1, st.2 ++ r2.2)

/-- The operations of the process that touch the shared counters:
entering handle_client (line 70), dispatching one record, and an explicit
log_metrics tick. -/
inductive SysOp where
  | connStart : SysOp
  | dispatch : (Nat → HttpResult) → Nat → List Char → SysOp
  | metricsTick : Nat → SysOp

def applyOp (m : Metrics) : SysOp → Metrics
  | .connStart => { m with connections_handled := m.connections_handled + 1 }
  | .dispatch env now msg => (processMessage env now m msg).1
  | .metricsTick now => (logMetrics m now).1

def applyOps (m : Metrics) (ops : List SysOp) : Metrics :=
  ops.foldl applyOp m

def isConnStart : SysOp → Bool
  | .connStart => true
  | _ => false

/-- A serialized JSON record in the sense of section 4.1: a string that
begins with a brace and that the scanner consumes completely. -/
def ValidRecord (rec : List Char) : Prop :=
  rec.head? = some '{' ∧ parseV (jsonFuel rec) rec = some []

/-- Characters after which the greedy number regex can not continue, so a
number match that stopped in front of one is stable under extending the
input. -/
def safeChar (c : Char) : Bool :=
  !(c.isDigit || c == '.' || c == 'e' || c == 'E')

/-- A nonempty remainder whose head is safe for number matches. -/
def SafeTail : List Char → Prop
  | [] => False
  | c :: _ => safeChar c = true

/-- Heads that make parseV fall through to the number regex. -/
def numDispatch (c : Char) : Bool :=
  !(c == '"' || c == '{' || c == '[' || c == 't' || c == 'f' || c == 'n')

instance instDecidableValidRecord (rec : List Char) :
    Decidable (ValidRecord rec) :=
  inferInstanceAs
    (Decidable (rec.head? = some '{' ∧ parseV (jsonFuel rec) rec = some []))

/-! ## Basic lemmas about the scanner helpers -/

theorem skipWs_append (s t : List Char) (c : Char) (r : List Char)
    (h : skipWs s = c :: r) : skipWs (s ++ t) = c :: (r ++ t) := by
  induction s with
  | nil => simp [skipWs] at h
  | cons a as ih =>
    simp only [skipWs, List.cons_append] at h ⊢
    by_cases ha : isWsChar a
    · simp only [ha, if_true] at h ⊢
      exact ih h
    · simp only [ha, if_false] at h ⊢
      cases h
      rfl

theorem skipWs_not_ws (c : Char) (cs : List Char) (h : isWsChar c = false) :
    skipWs (c :: cs) = c :: cs := by
  simp [skipWs, h]

theorem parseV_nil (f : Nat) : parseV f [] = none := by
  cases f <;> simp [parseV]

theorem parseMembers_nil (f : Nat) : parseMembers f [] = none := by
  cases f <;> simp [parseMembers, parseStringBody, parseStrM]

theorem parseElems_nil (f : Nat) : parseElems f [] = none := by
  cases f <;> simp [parseElems, parseV_nil]

theorem matchLit_append (l : List Char) :
    ∀ s r t, matchLit l s = some r → matchLit l (s ++ t) = some (r ++ t) := by
  induction l with
  | nil =>
    intro s r t h
    simp only [matchLit, Option.some.injEq] at h
    simp [matchLit, h]
  | cons p ps ih =>
    intro s r t h
    cases s with
    | nil => simp [matchLit] at h
    | cons c cs =>
      simp only [matchLit, List.cons_append] at h ⊢
      by_cases hc : c == p
      · simp only [hc, if_true] at h ⊢
        exact ih cs r t h
      · simp [hc] at h

theorem parseStrM_append (s : List Char) :
    ∀ (m : StrMode) (r t : List Char),
      parseStrM m s = some r → parseStrM m (s ++ t) = some (r ++ t) := by
  induction s with
  | nil =>
    intro m r t h
    cases m <;> simp [parseStrM] at h
  | cons c cs ih =>
    intro m r t h
    cases m with
    | norm =>
      simp only [parseStrM, List.cons_append] at h ⊢
      by_cases h1 : c == '"'
      · simp only [h1, if_true, Option.some.injEq] at h ⊢
        simp [h]
      · by_cases h2 : c == '\\'
        · simp only [h1, h2, if_true, if_false] at h ⊢
          exact ih _ r t h
        · by_cases h3 : c.toNat < 32
          · simp [h1, h2, h3] at h
          · simp only [h1, h2, h3, if_true, if_false] at h ⊢
            exact ih _ r t h
    | esc =>
      simp only [parseStrM, List.cons_append] at h ⊢
      by_cases h1 : c == 'u'
      · simp only [h1, if_true] at h ⊢
        exact ih _ r t h
      · by_cases h2 : isEscChar c
        · simp only [h1, h2, if_true, if_false] at h ⊢
          exact ih _ r t h
        · simp [h1, h2] at h
    | hex k =>
      cases k with
      | zero => simp [parseStrM] at h
      | succ k =>
        simp only [parseStrM, List.cons_append] at h ⊢
        by_cases h1 : isHexChar c
        · simp only [h1, if_true] at h ⊢
          by_cases h2 : k == 0
          · simp only [h2, if_true] at h ⊢
            exact ih _ r t h
          · simp only [h2, if_false] at h ⊢
            exact ih _ r t h
        · simp [h1] at h

theorem parseDigits_append (s : List Char) :
    ∀ (c : Char) (r t : List Char), parseDigits s = c :: r →
      parseDigits (s ++ t) = c :: (r ++ t) := by
  induction s with
  | nil => intro c r t h; simp [parseDigits] at h
  | cons a as ih =>
    intro c r t h
    simp only [parseDigits, List.cons_append] at h ⊢
    by_cases ha : a.isDigit
    · simp only [ha, if_true] at h ⊢
      exact ih c r t h
    · simp only [ha, if_false] at h ⊢
      cases h
      rfl

theorem parseIntPart_append (s t : List Char) (c : Char) (r : List Char)
    (h : parseIntPart s = some (c :: r)) :
    parseIntPart (s ++ t) = some (c :: (r ++ t)) := by
  cases s with
  | nil => simp [parseIntPart] at h
  | cons a as =>
    simp only [parseIntPart, List.cons_append] at h ⊢
    by_cases h0 : a == '0'
    · simp only [h0, if_true, Option.some.injEq] at h ⊢
      simp [h]
    · simp [h0] at h ⊢
      by_cases hd : a.isDigit
      · simp only [hd, if_true, Option.some.injEq] at h ⊢
        exact ⟨trivial, parseDigits_append as c r t h.2⟩
      · simp [hd] at h

theorem safeChar_elim (c : Char) (h : safeChar c = true) :
    c.isDigit = false ∧ (c == '.') = false ∧ (c == 'e') = false ∧
      (c == 'E') = false := by
  unfold safeChar at h
  cases hd : c.isDigit <;> cases h1 : c == '.' <;> cases h2 : c == 'e' <;>
    cases h3 : c == 'E' <;> simp [hd, h1, h2, h3] at h ⊢

theorem parseExp_append (s t : List Char) (c : Char) (r : List Char)
    (he : parseExp s = c :: r) (hs : safeChar c = true) :
    parseExp (s ++ t) = c :: (r ++ t) := by
  obtain ⟨-, -, hce, hcE⟩ := safeChar_elim c hs
  cases s with
  | nil => simp [parseExp] at he
  | cons x xs =>
    cases xs with
    | nil =>
      simp only [parseExp] at he
      cases he
      cases t with
      | nil => simp [parseExp]
      | cons y ys => simp [parseExp, hce, hcE]
    | cons y ys =>
      simp only [parseExp, List.cons_append] at he ⊢
      by_cases hx : x == 'e' || x == 'E'
      · simp only [hx, if_true] at he ⊢
        by_cases hy : y.isDigit
        · simp only [hy, if_true] at he ⊢
          exact parseDigits_append ys c r t he
        · simp only [hy, if_false] at he ⊢
          by_cases hpm : y == '+' || y == '-'
          · simp only [hpm, if_true] at he ⊢
            cases ys with
            | nil =>
              cases he
              simp [hce, hcE] at hx
            | cons d ds =>
              simp only [List.cons_append] at he ⊢
              by_cases hd2 : d.isDigit
              · simp only [hd2, if_true] at he ⊢
                exact parseDigits_append ds c r t he
              · simp only [hd2, if_false] at he ⊢
                cases he
                simp [hce, hcE] at hx
          · simp only [hpm, if_false] at he ⊢
            cases he
            simp [hce, hcE] at hx
      · simp only [hx, if_false] at he ⊢
        cases he
        rfl

theorem parseFrac_append (s t : List Char) (c : Char) (r : List Char)
    (he : parseExp (parseFrac s) = c :: r) (hs : safeChar c = true) :
    parseFrac (s ++ t) = parseFrac s ++ t := by
  obtain ⟨-, hcd, -, -⟩ := safeChar_elim c hs
  cases s with
  | nil => simp [parseFrac, parseExp] at he
  | cons x xs =>
    cases xs with
    | nil =>
      simp only [parseFrac] at he
      simp only [parseExp] at he
      cases he
      cases t with
      | nil => rfl
      | cons y ys =>
        simp only [List.cons_append, List.nil_append, parseFrac]
        simp [hcd]
    | cons y ys =>
      simp only [parseFrac, List.cons_append] at he ⊢
      by_cases hxy : x == '.' && y.isDigit
      · simp only [hxy, if_true] at he ⊢
        have hne : parseDigits ys ≠ [] := by
          intro h0
          rw [h0] at he
          simp [parseExp] at he
        cases hpd : parseDigits ys with
        | nil => exact absurd hpd hne
        | cons d ds =>
          rw [parseDigits_append ys d ds t hpd]
          simp
      · simp only [hxy, if_false]
        simp

theorem parseNumTail_append (q t : List Char) (c : Char) (r : List Char)
    (he : parseExp (parseFrac q) = c :: r) (hs : safeChar c = true) :
    parseExp (parseFrac (q ++ t)) = c :: (r ++ t) := by
  rw [parseFrac_append q t c r he hs]
  exact parseExp_append (parseFrac q) t c r he hs

theorem parseNumber_append (s t : List Char) (c : Char) (r : List Char)
    (h : parseNumber s = some (c :: r)) (hs : safeChar c = true) :
    parseNumber (s ++ t) = some (c :: (r ++ t)) := by
  cases s with
  | nil => simp [parseNumber] at h
  | cons a as =>
    simp only [parseNumber, List.cons_append] at h ⊢
    cases ha : a == '-' with
    | true =>
      simp only [ha, if_true] at h ⊢
      cases hip : parseIntPart as with
      | none => rw [hip] at h; exact absurd h (by simp)
      | some ir =>
        rw [hip] at h
        cases ir with
        | nil =>
          rw [Option.map_some'] at h
          simp [parseFrac, parseExp] at h
        | cons i ir2 =>
          rw [Option.map_some'] at h
          rw [Option.some.injEq] at h
          rw [parseIntPart_append as t i ir2 hip, Option.map_some',
            Option.some.injEq]
          have hq := parseNumTail_append (i :: ir2) t c r h hs
          simpa using hq
    | false =>
      simp only [ha, Bool.false_eq_true, if_false] at h ⊢
      cases hip : parseIntPart (a :: as) with
      | none => rw [hip] at h; exact absurd h (by simp)
      | some ir =>
        rw [hip] at h
        cases ir with
        | nil =>
          rw [Option.map_some'] at h
          simp [parseFrac, parseExp] at h
        | cons i ir2 =>
          rw [Option.map_some'] at h
          rw [Option.some.injEq] at h
          have hp2 : parseIntPart (a :: (as ++ t)) = some (i :: (ir2 ++ t)) :=
            parseIntPart_append (a :: as) t i ir2 hip
          rw [hp2, Option.map_some', Option.some.injEq]
          have hq := parseNumTail_append (i :: ir2) t c r h hs
          simpa using hq

theorem safeChar_of_ws (c : Char) (h : isWsChar c = true) : safeChar c = true := by
  unfold isWsChar at h
  simp only [Bool.or_eq_true, beq_iff_eq] at h
  rcases h with ((h | h) | h) | h <;> subst h <;> decide

theorem safeTail_of_skipWs (r : List Char) (d : Char) (rr : List Char)
    (h : skipWs r = d :: rr) (hd : safeChar d = true) : SafeTail r := by
  cases r with
  | nil => simp [skipWs] at h
  | cons a as =>
    simp only [skipWs] at h
    by_cases ha : isWsChar a
    · simp only [SafeTail]
      exact safeChar_of_ws a ha
    · simp only [ha, if_false] at h
      cases h
      simp only [SafeTail]
      exact hd

/-! ## Extension: a successful parse is stable under appending input

A value whose parse succeeded and stopped at a self-delimiting token (or,
for a number, in front of a character the number regex can not consume)
parses identically when more input is appended.  This is the key fact
behind reassembly of chunked records. -/

theorem parse_ext (f : Nat) :
    (∀ s r t, parseV f s = some r →
        (∀ c cs, s = c :: cs → numDispatch c = true → SafeTail r) →
        parseV f (s ++ t) = some (r ++ t)) ∧
    (∀ s r t, parseMembers f s = some r →
        parseMembers f (s ++ t) = some (r ++ t)) ∧
    (∀ s r t, parseElems f s = some r →
        parseElems f (s ++ t) = some (r ++ t)) := by
  induction f with
  | zero =>
    refine ⟨?_, ?_, ?_⟩ <;> intro s r t h <;>
      simp [parseV, parseMembers, parseElems] at h
  | succ f ih =>
    obtain ⟨ihV, ihM, ihE⟩ := ih
    have stepV : ∀ s r t, parseV (f + 1) s = some r →
        (∀ c cs, s = c :: cs → numDispatch c = true → SafeTail r) →
        parseV (f + 1) (s ++ t) = some (r ++ t) := by
      intro s r t h hsafe
      cases s with
      | nil => rw [parseV_nil] at h; exact absurd h (by simp)
      | cons c cs =>
        simp only [parseV, List.cons_append] at h ⊢
        cases h1 : c == '"'
        case true =>
          simp only [h1, if_true] at h ⊢
          exact parseStrM_append cs .norm r t h
        case false =>
        simp only [h1, Bool.false_eq_true, if_false] at h ⊢
        cases h2 : c == '{'
        case true =>
          simp only [h2, if_true] at h ⊢
          cases hsw : skipWs cs with
          | nil => rw [hsw] at h; exact absurd h (by simp)
          | cons w ws =>
            rw [hsw] at h
            rw [skipWs_append cs t w ws hsw]
            cases hw1 : w == '}'
            case true =>
              simp only [hw1, if_true, Option.some.injEq] at h ⊢
              rw [h]
            case false =>
            simp only [hw1, Bool.false_eq_true, if_false] at h ⊢
            cases hw2 : w == '"'
            case true =>
              simp only [hw2, if_true] at h ⊢
              exact ihM ws r t h
            case false => simp [hw2] at h
        case false =>
        simp only [h2, Bool.false_eq_true, if_false] at h ⊢
        cases h3 : c == '['
        case true =>
          simp only [h3, if_true] at h ⊢
          cases hsw : skipWs cs with
          | nil => rw [hsw] at h; exact absurd h (by simp)
          | cons w ws =>
            rw [hsw] at h
            rw [skipWs_append cs t w ws hsw]
            cases hw1 : w == ']'
            case true =>
              simp only [hw1, if_true, Option.some.injEq] at h ⊢
              rw [h]
            case false =>
              simp only [hw1, Bool.false_eq_true, if_false] at h ⊢
              exact ihE (w :: ws) r t h
        case false =>
        simp only [h3, Bool.false_eq_true, if_false] at h ⊢
        cases h4 : c == 't'
        case true =>
          simp only [h4, if_true] at h ⊢
          exact matchLit_append _ cs r t h
        case false =>
        simp only [h4, Bool.false_eq_true, if_false] at h ⊢
        cases h5 : c == 'f'
        case true =>
          simp only [h5, if_true] at h ⊢
          exact matchLit_append _ cs r t h
        case false =>
        simp only [h5, Bool.false_eq_true, if_false] at h ⊢
        cases h6 : c == 'n'
        case true =>
          simp only [h6, if_true] at h ⊢
          exact matchLit_append _ cs r t h
        case false =>
        simp only [h6, Bool.false_eq_true, if_false] at h ⊢
        have hnd : numDispatch c = true := by
          unfold numDispatch
          simp [h1, h2, h3, h4, h5, h6]
        have hst : SafeTail r := hsafe c cs rfl hnd
        cases r with
        | nil => exact absurd hst (by simp [SafeTail])
        | cons d dr =>
          simp only [SafeTail] at hst
          exact parseNumber_append (c :: cs) t d dr h hst
    refine ⟨stepV, ?_, ?_⟩
    · -- parseMembers
      intro s r t h
      simp only [parseMembers] at h ⊢
      cases hsb : parseStringBody s with
      | none => simp [hsb] at h
      | some r1 =>
        simp only [hsb] at h
        have hsb2 : parseStringBody (s ++ t) = some (r1 ++ t) :=
          parseStrM_append s .norm r1 t hsb
        simp only [hsb2]
        cases hw1 : skipWs r1 with
        | nil => simp [hw1] at h
        | cons w ws =>
          simp only [hw1] at h
          simp only [skipWs_append r1 t w ws hw1]
          cases hc : w == ':'
          case false => simp [hc] at h
          case true =>
          simp only [hc, if_true] at h ⊢
          cases hv : parseV f (skipWs ws) with
          | none => simp [hv] at h
          | some r3 =>
            simp only [hv] at h
            cases hw2 : skipWs r3 with
            | nil => simp [hw2] at h
            | cons w2 ws2 =>
              simp only [hw2] at h
              have hsafe3 : SafeTail r3 := by
                cases hb : w2 == '}'
                case true =>
                  exact safeTail_of_skipWs r3 w2 ws2 hw2
                    (by rw [eq_of_beq hb]; decide)
                case false =>
                cases hb2 : w2 == ','
                case true =>
                  exact safeTail_of_skipWs r3 w2 ws2 hw2
                    (by rw [eq_of_beq hb2]; decide)
                case false => simp [hb, hb2] at h
              have hws : skipWs ws ≠ [] := by
                intro h0
                rw [h0, parseV_nil] at hv
                exact absurd hv (by simp)
              cases hwsq : skipWs ws with
              | nil => exact absurd hwsq hws
              | cons u us =>
                simp only [skipWs_append ws t u us hwsq]
                rw [hwsq] at hv
                have hpv : parseV f (u :: (us ++ t)) = some (r3 ++ t) :=
                  ihV (u :: us) r3 t hv (fun c0 cs0 he0 hn0 => hsafe3)
                simp only [hpv]
                simp only [skipWs_append r3 t w2 ws2 hw2]
                cases hb : w2 == '}'
                case true =>
                  simp only [hb, if_true, Option.some.injEq] at h ⊢
                  rw [h]
                case false =>
                simp only [hb, Bool.false_eq_true, if_false] at h ⊢
                cases hb2 : w2 == ','
                case false => simp [hb2] at h
                case true =>
                simp only [hb2, if_true] at h ⊢
                cases hw3 : skipWs ws2 with
                | nil => simp [hw3] at h
                | cons w3 ws3 =>
                  simp only [hw3] at h
                  simp only [skipWs_append ws2 t w3 ws3 hw3]
                  cases hq : w3 == '"'
                  case false => simp [hq] at h
                  case true =>
                    simp only [hq, if_true] at h ⊢
                    exact ihM ws3 r t h
    · -- parseElems
      intro s r t h
      simp only [parseElems] at h ⊢
      cases hv : parseV f s with
      | none => simp [hv] at h
      | some r1 =>
        simp only [hv] at h
        cases hw1 : skipWs r1 with
        | nil => simp [hw1] at h
        | cons w ws =>
          simp only [hw1] at h
          have hsafe1 : SafeTail r1 := by
            cases hb : w == ']'
            case true =>
              exact safeTail_of_skipWs r1 w ws hw1
                (by rw [eq_of_beq hb]; decide)
            case false =>
            cases hb2 : w == ','
            case true =>
              exact safeTail_of_skipWs r1 w ws hw1
                (by rw [eq_of_beq hb2]; decide)
            case false => simp [hb, hb2] at h
          have hpv := ihV s r1 t hv (fun c0 cs0 he0 hn0 => hsafe1)
          simp only [hpv]
          simp only [skipWs_append r1 t w ws hw1]
          cases hb : w == ']'
          case true =>
            simp only [hb, if_true, Option.some.injEq] at h ⊢
            rw [h]
          case false =>
          simp only [hb, Bool.false_eq_true, if_false] at h ⊢
          cases hb2 : w == ','
          case false => simp [hb2] at h
          case true =>
          simp only [hb2, if_true] at h ⊢
          have hwsne : skipWs ws ≠ [] := by
            intro h0
            rw [h0, parseElems_nil] at h
            exact absurd h (by simp)
          cases hwsq : skipWs ws with
          | nil => exact absurd hwsq hwsne
          | cons u us =>
            rw [hwsq] at h
            simp only [skipWs_append ws t u us hwsq]
            exact ihE (u :: us) r t h

/-! ## Fuel monotonicity: success with some fuel is success with more -/

theorem parse_mono (f : Nat) :
    ∀ g, f ≤ g →
      ((∀ s r, parseV f s = some r → parseV g s = some r) ∧
       (∀ s r, parseMembers f s = some r → parseMembers g s = some r) ∧
       (∀ s r, parseElems f s = some r → parseElems g s = some r)) := by
  induction f with
  | zero =>
    intro g hg
    refine ⟨?_, ?_, ?_⟩ <;> intro s r h <;>
      simp [parseV, parseMembers, parseElems] at h
  | succ f ih =>
    intro g hg
    obtain ⟨g0, rfl⟩ : ∃ g0, g = g0 + 1 := ⟨g - 1, by omega⟩
    have hfg : f ≤ g0 := by omega
    obtain ⟨mV, mM, mE⟩ := ih g0 hfg
    refine ⟨?_, ?_, ?_⟩
    · intro s r h
      cases s with
      | nil => rw [parseV_nil] at h; exact absurd h (by simp)
      | cons c cs =>
        simp only [parseV] at h ⊢
        cases h1 : c == '"'
        case true => simpa [h1] using h
        case false =>
        simp only [h1, Bool.false_eq_true, if_false] at h ⊢
        cases h2 : c == '{'
        case true =>
          simp only [h2, if_true] at h ⊢
          cases hsw : skipWs cs with
          | nil => simp [hsw] at h
          | cons w ws =>
            simp only [hsw] at h ⊢
            cases hw1 : w == '}'
            case true => simpa [hw1] using h
            case false =>
            simp only [hw1, Bool.false_eq_true, if_false] at h ⊢
            cases hw2 : w == '"'
            case true =>
              simp only [hw2, if_true] at h ⊢
              exact mM ws r h
            case false => simp [hw2] at h
        case false =>
        simp only [h2, Bool.false_eq_true, if_false] at h ⊢
        cases h3 : c == '['
        case true =>
          simp only [h3, if_true] at h ⊢
          cases hsw : skipWs cs with
          | nil => simp [hsw] at h
          | cons w ws =>
            simp only [hsw] at h ⊢
            cases hw1 : w == ']'
            case true => simpa [hw1] using h
            case false =>
            simp only [hw1, Bool.false_eq_true, if_false] at h ⊢
            exact mE (w :: ws) r h
        case false =>
        simp only [h3, Bool.false_eq_true, if_false] at h ⊢
        exact h
    · intro s r h
      simp only [parseMembers] at h ⊢
      cases hsb : parseStringBody s with
      | none => simp [hsb] at h
      | some r1 =>
        simp only [hsb] at h ⊢
        cases hw1 : skipWs r1 with
        | nil => simp [hw1] at h
        | cons w ws =>
          simp only [hw1] at h ⊢
          cases hc : w == ':'
          case false => simp [hc] at h
          case true =>
          simp only [hc, if_true] at h ⊢
          cases hv : parseV f (skipWs ws) with
          | none => simp [hv] at h
          | some r3 =>
            simp only [hv] at h
            simp only [mV (skipWs ws) r3 hv]
            cases hw2 : skipWs r3 with
            | nil => simp [hw2] at h
            | cons w2 ws2 =>
              simp only [hw2] at h ⊢
              cases hb : w2 == '}'
              case true => simpa [hb] using h
              case false =>
              simp only [hb, Bool.false_eq_true, if_false] at h ⊢
              cases hb2 : w2 == ','
              case false => simp [hb2] at h
              case true =>
              simp only [hb2, if_true] at h ⊢
              cases hw3 : skipWs ws2 with
              | nil => simp [hw3] at h
              | cons w3 ws3 =>
                simp only [hw3] at h ⊢
                cases hq : w3 == '"'
                case false => simp [hq] at h
                case true =>
                  simp only [hq, if_true] at h ⊢
                  exact mM ws3 r h
    · intro s r h
      simp only [parseElems] at h ⊢
      cases hv : parseV f s with
      | none => simp [hv] at h
      | some r1 =>
        simp only [hv] at h
        simp only [mV s r1 hv]
        cases hw1 : skipWs r1 with
        | nil => simp [hw1] at h
        | cons w ws =>
          simp only [hw1] at h ⊢
          cases hb : w == ']'
          case true => simpa [hb] using h
          case false =>
          simp only [hb, Bool.false_eq_true, if_false] at h ⊢
          cases hb2 : w == ','
          case false => simp [hb2] at h
          case true =>
          simp only [hb2, if_true] at h ⊢
          exact mE (skipWs ws) r h

/-! ## pyLoads on a valid record and on its proper prefixes -/

theorem pyLoads_of_valid (rec : List Char) (hv : ValidRecord rec) :
    pyLoads rec = .ok := by
  obtain ⟨hh, hp⟩ := hv
  cases rec with
  | nil => simp at hh
  | cons c cs =>
    have hc : c = '{' := by simpa using hh
    subst hc
    unfold pyLoads
    rw [skipWs_not_ws '{' cs (by decide), hp]
    rfl

theorem pyLoads_take_err (rec : List Char) (hv : ValidRecord rec) (k : Nat)
    (h0 : 0 < k) (hk : k < rec.length) : pyLoads (rec.take k) = .err := by
  obtain ⟨hh, hp⟩ := hv
  cases rec with
  | nil => simp at hk
  | cons c cs =>
    have hc : c = '{' := by simpa using hh
    subst hc
    obtain ⟨k0, rfl⟩ : ∃ k0, k = k0 + 1 := ⟨k - 1, by omega⟩
    rw [List.take_succ_cons]
    cases hq : parseV (jsonFuel ('{' :: List.take k0 cs))
        ('{' :: List.take k0 cs) with
    | none =>
      unfold pyLoads
      rw [skipWs_not_ws '{' (List.take k0 cs) (by decide), hq]
    | some r =>
      exfalso
      have hsafe : ∀ c0 cs0, '{' :: List.take k0 cs = c0 :: cs0 →
          numDispatch c0 = true → SafeTail r := by
        intro c0 cs0 he hn
        cases he
        exact absurd hn (by decide)
      have hext := (parse_ext (jsonFuel ('{' :: List.take k0 cs))).1
        ('{' :: List.take k0 cs) r (List.drop k0 cs) hq hsafe
      have hjoin : ('{' :: List.take k0 cs) ++ List.drop k0 cs = '{' :: cs := by
        rw [List.cons_append, List.take_append_drop]
      rw [hjoin] at hext
      have hfuel : jsonFuel ('{' :: List.take k0 cs) ≤ jsonFuel ('{' :: cs) := by
        unfold jsonFuel
        have : (List.take k0 cs).length ≤ cs.length := by
          rw [List.length_take]; omega
        simp only [List.length_cons]
        omega
      have hbig := (parse_mono _ _ hfuel).1 _ _ hext
      rw [hp] at hbig
      have hre : r ++ List.drop k0 cs = [] := by
        simpa using hbig.symm
      have hdrop : List.drop k0 cs = [] := (List.append_eq_nil.mp hre).2
      have hlen0 : cs.length - k0 = 0 := by
        have := congrArg List.length hdrop
        simpa using this
      simp only [List.length_cons] at hk
      omega

/-! ## The decode loop on whole records, prefixes, and corrupt content -/

theorem findChar_cons_self (cs : List Char) :
    findChar '{' ('{' :: cs) = some 0 := by
  simp [findChar]

theorem decodeLoop_nil : decodeLoop [] = ([], []) := rfl

theorem decodeLoop_err (buf : List Char) (i : Nat)
    (hf : findChar '{' buf = some i) (he : pyLoads (buf.drop i) = .err) :
    decodeLoop buf = ([], buf) := by
  unfold decodeLoop
  cases buf with
  | nil => simp [findChar] at hf
  | cons c bs =>
    simp only [decodeLoopF, hf, he]

theorem decodeLoop_ok (buf : List Char) (hh : buf.head? = some '{')
    (hok : pyLoads buf = .ok) : decodeLoop buf = ([buf], []) := by
  cases buf with
  | nil => simp at hh
  | cons c bs =>
    have hc : c = '{' := by simpa using hh
    subst hc
    unfold decodeLoop
    simp only [decodeLoopF, findChar_cons_self, List.drop_zero, hok]

theorem decodeLoop_incomplete (rec : List Char) (hv : ValidRecord rec) (k : Nat)
    (hk : k < rec.length) :
    decodeLoop (rec.take k) = ([], rec.take k) := by
  cases k with
  | zero => simp [decodeLoop_nil]
  | succ k1 =>
    have hh : rec.head? = some '{' := hv.1
    cases rec with
    | nil => simp at hk
    | cons c cs =>
      have hc : c = '{' := by simpa using hh
      subst hc
      have herr : pyLoads (('{' :: cs).take (k1 + 1)) = .err :=
        pyLoads_take_err ('{' :: cs) hv (k1 + 1) (by omega) hk
      rw [List.take_succ_cons] at herr ⊢
      exact decodeLoop_err ('{' :: List.take k1 cs) 0 (findChar_cons_self _) herr

/-! ## Reassembly of a record from chunks -/

theorem feedAll_empty_chunks (cs : List (List Char)) (h : cs.flatten = []) :
    feedAll [] cs = ([], []) := by
  induction cs with
  | nil => rfl
  | cons c cs ih =>
    simp only [List.flatten] at h
    have hc : c = [] := (List.append_eq_nil.mp h).1
    have hcs : cs.flatten = [] := (List.append_eq_nil.mp h).2
    subst hc
    simp [feedAll, feedChunk, decodeLoop_nil, ih hcs]

theorem feedAll_reassembles (rec : List Char) (hv : ValidRecord rec) :
    ∀ (chunks : List (List Char)) (k : Nat), k < rec.length →
      rec.take k ++ chunks.flatten = rec →
      feedAll (rec.take k) chunks = ([rec], []) := by
  intro chunks
  induction chunks with
  | nil =>
    intro k hk hjoin
    simp only [List.flatten_nil, List.append_nil] at hjoin
    have hlen : (rec.take k).length = rec.length := by rw [hjoin]
    rw [List.length_take] at hlen
    omega
  | cons c cs ih =>
    intro k hk hjoin
    have hlen_take : (rec.take k).length = k := by
      rw [List.length_take]; omega
    have hassoc : (rec.take k ++ c) ++ cs.flatten = rec := by
      simpa [List.append_assoc] using hjoin
    have hk2 : k + c.length ≤ rec.length := by
      have hlq := congrArg List.length hassoc
      simp only [List.length_append, hlen_take] at hlq
      omega
    have htake : rec.take k ++ c = rec.take (k + c.length) := by
      conv_rhs => rw [← hassoc]
      have h2 : (rec.take k ++ c).length = k + c.length := by
        simp [hlen_take]
      rw [← h2, List.take_left]
    simp only [feedAll, feedChunk]
    rw [htake]
    by_cases hful : k + c.length = rec.length
    · have hjr : cs.flatten = [] := by
        have hlq := congrArg List.length hassoc
        simp only [List.length_append, hlen_take] at hlq
        have hjl : cs.flatten.length = 0 := by omega
        exact List.eq_nil_of_length_eq_zero hjl
      rw [hful, List.take_length]
      simp only [decodeLoop_ok rec hv.1 (pyLoads_of_valid rec hv),
        feedAll_empty_chunks cs hjr]
      simp
    · have hlt : k + c.length < rec.length := lt_of_le_of_ne hk2 hful
      have hj2 : rec.take (k + c.length) ++ cs.flatten = rec := by
        rw [← htake]
        exact hassoc
      simp only [decodeLoop_incomplete rec hv (k + c.length) hlt,
        ih (k + c.length) hlt hj2]
      simp

/-! ## Metrics bookkeeping helpers -/

theorem logMetrics_connections (m : Metrics) (now : Nat) :
    ((logMetrics m now).1).connections_handled = m.connections_handled := by
  simp only [logMetrics]
  split <;> rfl

theorem processMessage_connections (env : Nat → HttpResult) (now : Nat)
    (m : Metrics) (msg : List Char) :
    ((processMessage env now m msg).1).connections_handled =
      m.connections_handled := by
  by_cases hp : pyLoads msg = .ok
  · simp only [processMessage, hp, if_true]
    cases ht : (forwardToFunction env).result with
    | some s =>
      simp only [ht]
      rw [logMetrics_connections]
      by_cases hs : s == 200 || s == 201 || s == 202 <;> simp [hs]
    | none => simp [ht]
  · simp [processMessage, hp]

theorem forwardGo_attempts_le (env : Nat → HttpResult) (rd : Nat) :
    ∀ rem attempt, (forwardGo env rd attempt rem).attempts ≤ rem := by
  intro rem
  induction rem with
  | zero => intro attempt; simp [forwardGo]
  | succ rem ih =>
    intro attempt
    cases h : env attempt with
    | response s => simp [forwardGo, h]
    | netError =>
      by_cases hr : rem = 0
      · subst hr; simp [forwardGo, h]
      · have hbeq : (rem == 0) = false := by simpa using hr
        have hrec := ih (attempt + 1)
        simp only [forwardGo, h, hbeq, Bool.false_eq_true, if_false]
        show (forwardGo env rd (attempt + 1) rem).attempts + 1 ≤ rem + 1
        omega

theorem findChar_eq_none (c : Char) (l : List Char) (h : c ∉ l) :
    findChar c l = none := by
  induction l with
  | nil => rfl
  | cons a as ih =>
    have h1 : ¬(c = a) ∧ c ∉ as := by simpa [not_or] using h
    have ha : (a == c) = false := by
      cases hq : a == c
      · rfl
      · exact absurd (eq_of_beq hq).symm h1.1
    simp [findChar, ha, ih h1.2]

/-! ## Claim theorems -/

/-- Claim C1 (code bug): handle_client never consults max_message_size, so
the decode step is independent of the configured limit, and a buffer
holding an incomplete record strictly larger than the configured maximum
(here 5) is retained in full instead of being discarded. -/
theorem C1_max_message_size_unenforced :
    (∀ cfg cfg2 : ForwarderConfig, ∀ buffer chunk : List Char,
        handleChunkCfg cfg buffer chunk = handleChunkCfg cfg2 buffer chunk) ∧
    handleChunkCfg ⟨8192, 60, 5⟩ [] "\x7b\"aaaaaaaaaa".data =
      ([], "\x7b\"aaaaaaaaaa".data) ∧
    5 < "\x7b\"aaaaaaaaaa".data.length := by
  exact ⟨fun _ _ _ _ => rfl, by decide, by decide⟩

/-- Claim C2, counterexample to the byte-level statement: the record with
characters left-brace "a":"é" right-brace is valid JSON, its UTF-8 bytes
split at offset 7 fall inside the two-byte encoding of é, and feeding the
two byte chunks emits nothing at all (the first chunk fails to decode and
the connection dies), instead of emitting the record exactly once. -/
theorem C2_counterexample_byte_split :
    ValidRecord "\x7b\"a\":\"é\"\x7d".data ∧
    utf8Decode ([123, 34, 97, 34, 58, 34, 195] ++ [169, 34, 125]) =
      some "\x7b\"a\":\"é\"\x7d".data ∧
    (runConn [] [[123, 34, 97, 34, 58, 34, 195], [169, 34, 125]]).1 = [] ∧
    (runConn [] [[123, 34, 97, 34, 58, 34, 195], [169, 34, 125]]).1 ≠
      ["\x7b\"a\":\"é\"\x7d".data] := by
  exact ⟨by decide, by decide, by decide, by decide⟩

/-- Claim C2 (amended to character-boundary splits): for every valid
serialized record and every way of cutting its character sequence into
consecutive chunks, feeding the chunks in order emits exactly the record,
exactly once, with an empty buffer afterwards; and while the record is
still incomplete every decode attempt emits nothing and leaves the buffer
untouched. -/
theorem C2_record_reassembly_char_chunks (rec : List Char)
    (hv : ValidRecord rec) :
    (∀ chunks : List (List Char), chunks.flatten = rec →
        feedAll [] chunks = ([rec], [])) ∧
    (∀ k, 0 < k → k < rec.length →
        decodeLoop (rec.take k) = ([], rec.take k)) := by
  constructor
  · intro chunks hj
    have h0 : rec.take 0 ++ chunks.flatten = rec := by simpa using hj
    have hlen : 0 < rec.length := by
      obtain ⟨hh, -⟩ := hv
      cases rec
      · simp at hh
      · simp
    simpa using feedAll_reassembles rec hv chunks 0 hlen h0
  · intro k h0 hk
    exact decodeLoop_incomplete rec hv k hk

/-- Witness for C2: the record from the concrete scenario split after its
fourth character is reassembled and emitted exactly once. -/
theorem C2_record_reassembly_char_chunks_witness :
    feedAll [] ["\x7b\"a\"".data, ":1\x7d".data] =
      (["\x7b\"a\":1\x7d".data], []) :=
  (C2_record_reassembly_char_chunks "\x7b\"a\":1\x7d".data (by decide)).1
    ["\x7b\"a\"".data, ":1\x7d".data] (by decide)

/-- Claim C3, counterexample: after feeding the malformed chunk
left-brace right-bracket, the decode loop keeps the corrupt buffer instead
of discarding the unparsable prefix up to end-of-buffer, and a following
valid record is swallowed by the stuck buffer and never emitted. -/
theorem C3_counterexample_malformed_buffer_kept :
    feedAll [] ["\x7b]".data, "\x7b\"a\":1\x7d".data] =
      ([], "\x7b]\x7b\"a\":1\x7d".data) ∧
    "\x7b]\x7b\"a\":1\x7d".data ≠ ([] : List Char) := by
  exact ⟨by decide, by decide⟩

/-- Claim C3 (amended): on a parse failure that is not an Extra data
failure — malformed just as much as merely incomplete — the decode loop
stops and leaves the buffer exactly as it was; the unparsable prefix is
not discarded, so the decoder can stay stuck on corrupt content. -/
theorem C3_structural_error_keeps_buffer (buf : List Char) (i : Nat)
    (hf : findChar '{' buf = some i) (he : pyLoads (buf.drop i) = .err) :
    decodeLoop buf = ([], buf) :=
  decodeLoop_err buf i hf he

/-- Witness for C3: the malformed buffer left-brace right-bracket is kept
unchanged by the decode attempt. -/
theorem C3_structural_error_keeps_buffer_witness :
    decodeLoop "\x7b]".data = ([], "\x7b]".data) :=
  C3_structural_error_keeps_buffer "\x7b]".data 0 (by decide) (by decide)

/-- Claim C4: one chunk holding the two concatenated records of the
concrete scenario yields exactly the two records, in wire order, with an
empty buffer, and the dispatcher forwards both, in that order. -/
theorem C4_two_records_one_chunk :
    feedAll [] ["\x7b\"a\":1\x7d\x7b\"b\":2\x7d".data] =
      (["\x7b\"a\":1\x7d".data, "\x7b\"b\":2\x7d".data], []) ∧
    (dispatchAll (fun _ => .response 200) 0 ⟨0, 0, 0, 0⟩
        ["\x7b\"a\":1\x7d".data, "\x7b\"b\":2\x7d".data]).2 =
      ["\x7b\"a\":1\x7d".data, "\x7b\"b\":2\x7d".data] := by
  exact ⟨by decide, by decide⟩

/-- Claim C5: the forwarder makes at most 3 attempts; a received response
on the first attempt ends the call at once with Delivered for 200/201/202
and Rejected(status) otherwise; total network failure gives exactly 3
attempts with sleeps 1 then 2 and surfaces Unreachable; and a response
after k initial network failures ends the call on attempt k+1. -/
theorem C5_forward_retry_policy (env : Nat → HttpResult) :
    (forwardToFunction env).attempts ≤ 3 ∧
    (∀ s, env 0 = .response s →
      forwardToFunction env = ⟨1, [], some s⟩ ∧
      classify (forwardToFunction env) =
        (if s == 200 || s == 201 || s == 202 then .delivered
         else .rejected s)) ∧
    ((∀ i, i < 3 → env i = .netError) →
      forwardToFunction env = ⟨3, [1, 2], none⟩ ∧
      classify (forwardToFunction env) = .unreachable) ∧
    (∀ k s, k < 3 → (∀ i, i < k → env i = .netError) →
      env k = .response s →
      (forwardToFunction env).attempts = k + 1 ∧
      (forwardToFunction env).result = some s) := by
  refine ⟨forwardGo_attempts_le env 1 3 0, ?_, ?_, ?_⟩
  · intro s hs
    have hft : forwardToFunction env = ⟨1, [], some s⟩ := by
      simp [forwardToFunction, forwardGo, hs]
    exact ⟨hft, by rw [hft]; rfl⟩
  · intro hall
    have h0 := hall 0 (by omega)
    have h1 := hall 1 (by omega)
    have h2 := hall 2 (by omega)
    have hft : forwardToFunction env = ⟨3, [1, 2], none⟩ := by
      simp [forwardToFunction, forwardGo, h0, h1, h2]
    exact ⟨hft, by rw [hft]; rfl⟩
  · intro k s hk hprev hks
    interval_cases k
    · have hft : forwardToFunction env = ⟨1, [], some s⟩ := by
        simp [forwardToFunction, forwardGo, hks]
      rw [hft]
      exact ⟨rfl, rfl⟩
    · have h0 := hprev 0 (by omega)
      have hft : forwardToFunction env = ⟨2, [1], some s⟩ := by
        simp [forwardToFunction, forwardGo, h0, hks]
      rw [hft]
      exact ⟨rfl, rfl⟩
    · have h0 := hprev 0 (by omega)
      have h1 := hprev 1 (by omega)
      have hft : forwardToFunction env = ⟨3, [1, 2], some s⟩ := by
        simp [forwardToFunction, forwardGo, h0, h1, hks]
      rw [hft]
      exact ⟨rfl, rfl⟩

/-- Witness for C5: a server that always refuses the connection gives
exactly 3 attempts, sleeps of 1 then 2, and Unreachable. -/
theorem C5_forward_retry_policy_witness :
    forwardToFunction (fun _ => .netError) = ⟨3, [1, 2], none⟩ ∧
    classify (forwardToFunction (fun _ => .netError)) = .unreachable :=
  (C5_forward_retry_policy (fun _ => .netError)).2.2.1 (fun _ _ => rfl)

/-- Claim C6: when the buffer extended by the received chunk holds no
opening brace, the decode attempt discards the whole buffer and emits
nothing. -/
theorem C6_no_brace_discards_buffer (buf chunk : List Char)
    (h : '{' ∉ buf ++ chunk) : feedChunk buf chunk = ([], []) := by
  have hf : findChar '{' (buf ++ chunk) = none := findChar_eq_none _ _ h
  unfold feedChunk decodeLoop
  simp only [decodeLoopF, hf]

/-- Witness for C6: brace-free noise is dropped with no emission. -/
theorem C6_no_brace_discards_buffer_witness :
    feedChunk "xy".data "z12]".data = ([], []) :=
  C6_no_brace_discards_buffer "xy".data "z12]".data (by decide)

/-- Claim C7: a record that does not parse as JSON increments
messages_failed by exactly one, triggers no HTTP attempt, returns at once,
and the dispatcher goes on to the remaining records (connection stays). -/
theorem C7_dispatch_parse_failure (env : Nat → HttpResult) (now : Nat)
    (m : Metrics) (msg : List Char) (rest : List (List Char))
    (h : pyLoads msg ≠ .ok) :
    processMessage env now m msg =
      ({ m with messages_failed := m.messages_failed + 1 }, []) ∧
    dispatchAll env now m (msg :: rest) =
      dispatchAll env now
        { m with messages_failed := m.messages_failed + 1 } rest := by
  have h1 : processMessage env now m msg =
      ({ m with messages_failed := m.messages_failed + 1 }, []) := by
    simp [processMessage, h]
  refine ⟨h1, ?_⟩
  simp only [dispatchAll, h1]
  simp

/-- Witness for C7: dispatching a non-JSON record bumps only the failed
counter and performs no forward. -/
theorem C7_dispatch_parse_failure_witness :
    processMessage (fun _ => .response 200) 0 ⟨0, 0, 0, 0⟩ "oops".data =
      (⟨0, 1, 0, 0⟩, []) :=
  (C7_dispatch_parse_failure (fun _ => .response 200) 0 ⟨0, 0, 0, 0⟩
    "oops".data [] (by decide)).1

/-- Claim C8: a snapshot happens only when the elapsed time reaches the
interval (otherwise the state is untouched and nothing is reported); when
it happens it reports the failure rate failed over processed plus failed
as a percentage, zeroes the two message counters, stamps the time, and
leaves connections_handled unchanged. -/
theorem C8_metrics_snapshot (m : Metrics) (now : Nat) :
    (now - m.last_metrics_time < metricsInterval →
      logMetrics m now = (m, none)) ∧
    (metricsInterval ≤ now - m.last_metrics_time →
      logMetrics m now =
        ({ m with messages_processed := 0, messages_failed := 0,
                  last_metrics_time := now },
          some { processed := m.messages_processed,
                 failed := m.messages_failed,
                 messagesPerSecond := (m.messages_processed : ℚ) /
                   ((now - m.last_metrics_time : Nat) : ℚ),
                 failureRatePercent :=
                   if 0 < m.messages_processed + m.messages_failed then
                     (m.messages_failed : ℚ) /
                       ((m.messages_processed + m.messages_failed : Nat) : ℚ)
                       * 100
                   else 0,
                 activeConnectionsLabel := m.connections_handled })) := by
  constructor
  · intro h
    simp only [logMetrics]
    rw [if_neg (by omega)]
  · intro h
    simp only [logMetrics]
    rw [if_pos (by omega)]

/-- Witness for C8: 8 successes and 2 failures snapshot as processed 8,
failed 2, rate 20 percent, with the counters zeroed, the connection count
kept, and a too-early call changing nothing. -/
theorem C8_metrics_snapshot_witness :
    logMetrics ⟨8, 2, 7, 100⟩ 160 =
      (⟨0, 0, 7, 160⟩, some ⟨8, 2, 8/60, 20, 7⟩) ∧
    logMetrics ⟨8, 2, 7, 100⟩ 130 = (⟨8, 2, 7, 100⟩, none) := by
  constructor
  · have h := (C8_metrics_snapshot ⟨8, 2, 7, 100⟩ 160).2
      (by norm_num [metricsInterval])
    rw [h]
    norm_num
  · exact (C8_metrics_snapshot ⟨8, 2, 7, 100⟩ 130).1
      (by norm_num [metricsInterval])

/-- Claim C9: a chunk that is not valid UTF-8 on its own makes the decode
step raise, which ends the read loop at once: nothing further is emitted
whatever arrives later, the buffered partial record is lost, and the
connection is closed by the exception path. -/
theorem C9_invalid_utf8_closes_connection (buf : List Char) (c : List Nat)
    (cs : List (List Nat)) (h : utf8Decode c = none) :
    runConn buf (c :: cs) = ([], true) := by
  simp [runConn, h]

/-- Witness for C9: the byte C3, the first half of a two-byte character,
arriving alone kills the connection even though the second half follows in
the next chunk. -/
theorem C9_invalid_utf8_closes_connection_witness :
    runConn "\x7b\"a\":\"".data [[195], [169, 34, 125]] = ([], true) :=
  C9_invalid_utf8_closes_connection "\x7b\"a\":\"".data [195]
    [[169, 34, 125]] (by decide)

/-- Claim C10: connections_handled equals its initial value plus the
number of handler starts, whatever mix of dispatches and metrics ticks
runs in between; in particular it never decreases and is never reset. -/
theorem C10_connections_cumulative (m : Metrics) (ops : List SysOp) :
    (applyOps m ops).connections_handled =
      m.connections_handled + ops.countP isConnStart ∧
    m.connections_handled ≤ (applyOps m ops).connections_handled := by
  have key : ∀ (ops : List SysOp) (m : Metrics),
      (applyOps m ops).connections_handled =
        m.connections_handled + ops.countP isConnStart := by
    intro ops
    induction ops with
    | nil => intro m; simp [applyOps]
    | cons op rest ih =>
      intro m
      have hstep : applyOps m (op :: rest) = applyOps (applyOp m op) rest := by
        simp [applyOps]
      rw [hstep, ih]
      cases op with
      | connStart =>
        simp [applyOp, List.countP_cons, isConnStart]
        omega
      | dispatch env now msg =>
        simp only [applyOp]
        rw [processMessage_connections]
        simp [List.countP_cons, isConnStart]
      | metricsTick now =>
        simp only [applyOp]
        rw [logMetrics_connections]
        simp [List.countP_cons, isConnStart]
  refine ⟨key ops m, ?_⟩
  rw [key ops m]
  omega
